import Mathlib

/-!
Verification of the `mux` command runner against its specification.

Strings from the Rust source are modelled as `List Char` (Rust `&str` /
`String` at character granularity).  Machine integers are modelled as `Nat`
or `Int`; Rust's `str::parse::<i64>` is modelled with its sign handling and
its `i64` range check.  Fallible Rust code returns `Option` / `Except`.
Functions keep the names of the Rust functions they embed
(`src/history.rs`, `src/searcher.rs`, `src/suggest.rs`, `src/parallel.rs`,
`src/runner.rs`).
-/

/-- Conversion from a Lean string literal to the `List Char` model. -/
def str (s : String) : List Char := s.data

/-- Whitespace predicate used by Rust `char::is_whitespace` /
`str::split_whitespace` (restricted to the ASCII whitespace characters that
can occur in the inputs considered here). -/
def isWs (c : Char) : Bool := c = ' ' ∨ c = '\t' ∨ c = '\n' ∨ c = '\r'

/-- Rust `str::trim_start`. -/
def trimStartL (l : List Char) : List Char := l.dropWhile isWs

/-- Rust `str::trim_end`. -/
def trimEndL (l : List Char) : List Char := (l.reverse.dropWhile isWs).reverse

/-- Rust `str::trim`. -/
def trimL (l : List Char) : List Char := trimStartL (trimEndL l)

/-- Rust `str::split_whitespace` (no empty tokens).  `cur` is the word
currently being accumulated. -/
def splitWsAux : List Char → List Char → List (List Char)
  | [], cur => if cur = [] then [] else [cur]
  | c :: cs, cur =>
    if isWs c then
      (if cur = [] then splitWsAux cs [] else cur :: splitWsAux cs [])
    else splitWsAux cs (cur ++ [c])

/-- Rust `str::split_whitespace`, collected to a list. -/
def splitWs (l : List Char) : List (List Char) := splitWsAux l []

/-- Digit run to value: the core of Rust `str::parse::<i64>` after the sign.
`none` when the run is empty or contains a non-digit. -/
def digitsToNat (s : List Char) : Option Nat :=
  if s ≠ [] ∧ s.all (·.isDigit) then
    some (s.foldl (fun a c => a * 10 + (c.toNat - 48)) 0)
  else none

/-- Rust `str::parse::<i64>`: optional single leading `+`/`-`, then one or
more ASCII digits, rejecting values outside the `i64` range. -/
def parseI64 (s : List Char) : Option Int :=
  match s with
  | c :: rest =>
    if c = '+' then
      (digitsToNat rest).bind fun n => if n ≤ 2 ^ 63 - 1 then some (n : Int) else none
    else if c = '-' then
      (digitsToNat rest).bind fun n => if n ≤ 2 ^ 63 then some (-(n : Int)) else none
    else
      (digitsToNat (c :: rest)).bind fun n => if n ≤ 2 ^ 63 - 1 then some (n : Int) else none
  | [] => none

/-- Decimal digits of a natural number (fuel-structured so the kernel can
evaluate it; `fuel = n + 1` always suffices). -/
def natToCharsF : Nat → Nat → List Char
  | 0, _ => []
  | fuel + 1, n =>
    if n < 10 then [Nat.digitChar n]
    else natToCharsF fuel (n / 10) ++ [Nat.digitChar (n % 10)]

/-- Decimal rendering of a natural number (Rust `u32`/`usize` `Display`). -/
def natToChars (n : Nat) : List Char := natToCharsF (n + 1) n

/-- Decimal rendering of an integer (Rust `i64` `Display`). -/
def intToChars (i : Int) : List Char :=
  if i < 0 then '-' :: natToChars i.natAbs else natToChars i.toNat

/-! ## History readers (`src/history.rs`) -/

/-- `HistoryEntry` from `src/history.rs`. -/
structure HistoryEntry where
  command : List Char
  timestamp : Option Int
deriving DecidableEq, Repr

/-- `HistoryReader::read_bash_history`, on the list of lines of the file.
A line starting with `#` whose remainder parses as an integer is a
timestamp marker for the next line; a `#` line that does not parse is
itself a command; other lines are commands without timestamps. -/
def read_bash_history : List (List Char) → List HistoryEntry
  | [] => []
  | l :: rest =>
    if l.head? = some '#' then
      match parseI64 (trimL l.tail) with
      | some ts =>
        match rest with
        | cmd :: rest2 => ⟨cmd, some ts⟩ :: read_bash_history rest2
        | [] => []
      | none => ⟨l, none⟩ :: read_bash_history rest
    else ⟨l, none⟩ :: read_bash_history rest

/-- A bash history line that acts as a timestamp marker: starts with `#`
and the rest (trimmed) parses as an integer. -/
def isMarkerLine (l : List Char) : Bool :=
  l.head? = some '#' ∧ (parseI64 (trimL l.tail)).isSome

/-- True when processing the line list leaves a timestamp marker pending
(the last processed line is a marker whose command line is missing). -/
def danglingMarker : List (List Char) → Bool
  | [] => false
  | l :: rest =>
    if isMarkerLine l then
      match rest with
      | [] => true
      | _ :: rest2 => danglingMarker rest2
    else danglingMarker rest

/-- `HistoryReader::parse_zsh_extended_line`: parse `": <ts>:<dur>;<cmd>"`.
Mirrors the Rust control flow: strip the `": "` prefix, find the first
`;`, iterate the `:`-split of the metadata (first part, second part must
exist, a third part must not), parse the first part as `i64`.  The
duration part is bound but never validated in the source. -/
def parse_zsh_extended_line (l : List Char) : Option HistoryEntry :=
  match l with
  | c1 :: c2 :: rest =>
    if c1 = ':' ∧ c2 = ' ' then
      if ';' ∈ rest then
        let meta := rest.takeWhile (· ≠ ';')
        let cmd := (rest.dropWhile (· ≠ ';')).tail
        if ':' ∈ meta then
          let tsStr := meta.takeWhile (· ≠ ':')
          let afterColon := (meta.dropWhile (· ≠ ':')).tail
          if ':' ∈ afterColon then none
          else
            match parseI64 tsStr with
            | some ts => some ⟨cmd, some ts⟩
            | none => none
        else none
      else none
    else none
  | _ => none

/-- The zsh extended-history line form as the specification words it: the
line starts with `": "`, contains a `;`, the metadata before the first `;`
has exactly two colon-separated fields (i.e. exactly one `:`), and the
`<ts>` field parses as an integer; the command is everything after the
first `;` and the timestamp comes from the metadata. -/
def zshExtendedSpecForm (l : List Char) : Option HistoryEntry :=
  match l with
  | c1 :: c2 :: rest =>
    if c1 = ':' ∧ c2 = ' ' then
      if ';' ∈ rest then
        let meta := rest.takeWhile (· ≠ ';')
        let cmd := (rest.dropWhile (· ≠ ';')).tail
        if meta.count ':' = 1 then
          match parseI64 (meta.takeWhile (· ≠ ':')) with
          | some ts => some ⟨cmd, some ts⟩
          | none => none
        else none
      else none
    else none
  | _ => none

/-- Second pass of `HistoryReader::read_zsh_history`: each joined line is
parsed as extended history if possible, otherwise it is a bare command;
empty lines are skipped. -/
def zshSecondPass (ls : List (List Char)) : List HistoryEntry :=
  ls.foldr
    (fun l acc =>
      if l = [] then acc
      else ((parse_zsh_extended_line l).getD ⟨l, none⟩) :: acc)
    []

/-! ## Command store and fuzzy searcher (`src/searcher.rs`) -/

/-- `IndexedCommand` from `src/searcher.rs`. -/
structure IndexedCommand where
  id : Int
  command : List Char
  frequency : Nat
  lastUsed : Option Int
deriving DecidableEq, Repr

/-- Sync-state table (`sync_state` SQLite table): one row per shell. -/
def SyncTable := List (String × Int × Nat)

/-- `HistorySearcher::get_sync_state`: the stored
`(last_sync_timestamp, last_line_count)` row, or `(0, 0)` when the shell
has no row (`QueryReturnedNoRows`). -/
def get_sync_state (tbl : SyncTable) (shell : String) : Int × Nat :=
  (List.lookup shell tbl).getD (0, 0)

/-- `HistorySearcher::update_sync_state_on`: the row written after a sync
pass is the wall-clock time together with the total number of lines read
in that pass. -/
def update_sync_state (now : Int) (lineCount : Nat) : Int × Nat := (now, lineCount)

/-- The per-entry keep decision of the incremental sync filter in
`HistorySearcher::sync_from_shell_history`: timestamped entries are kept
when newer than the stored sync timestamp, untimestamped ones when their
index reaches the stored line count. -/
def syncKeep (lastTs : Int) (lastCnt : Nat) (i : Nat) (e : HistoryEntry) : Bool :=
  match e.timestamp with
  | some ts => ts > lastTs
  | none => i ≥ lastCnt

/-- The `new_commands` list of `HistorySearcher::sync_from_shell_history`:
enumerate the history, filter with the incremental filter, drop the
indices.  Exactly these entries are passed to
`insert_or_update_command_on`. -/
def filterNewCommands (hist : List HistoryEntry) (lastTs : Int) (lastCnt : Nat) :
    List HistoryEntry :=
  ((hist.enum).filter fun p => syncKeep lastTs lastCnt p.1 p.2).map (·.2)

/-- Character subsequence test (the match condition of fuzzy matching). -/
def isSubseq : List Char → List Char → Bool
  | [], _ => true
  | _ :: _, [] => false
  | a :: as, b :: bs => if a = b then isSubseq as bs else isSubseq (a :: as) bs

/-- Modelled from the spec: `nucleo_matcher::Matcher::fuzzy_match` is an
external crate, not part of this repository.  Per §4.3 the searcher uses
"standard fuzzy-subsequence scoring": a haystack matches iff the query is
a character subsequence of it.  The concrete score value (16 per query
character here) is not relied upon by any claim below. -/
def fuzzy_match (haystack needle : List Char) : Option Nat :=
  if isSubseq needle haystack then some (16 * needle.length) else none

/-- `SearchResult` from `src/searcher.rs`. -/
structure SearchResult where
  command : List Char
  score : Nat
deriving DecidableEq, Repr

/-- In-memory state of `HistorySearcher` (the `entries` vector; the
haystacks vector is the parallel list of `command` fields). -/
structure Searcher where
  entries : List IndexedCommand
deriving DecidableEq, Repr

/-- Stable insertion into a list sorted by a descending key (the element
goes before the first strictly smaller key, after equal keys seen
earlier -- the behaviour of Rust's stable `sort_by` on the comparator
`b.key.cmp(&a.key)`). -/
def insertDescBy {α β : Type} [LinearOrder β] (key : α → β) (x : α) : List α → List α
  | [] => [x]
  | y :: ys => if key y < key x then x :: y :: ys else y :: insertDescBy key x ys

/-- Stable sort by a descending key (models Rust's stable `sort_by` /
`sort_by_key(Reverse(..))`). -/
def sortDescBy {α β : Type} [LinearOrder β] (key : α → β) : List α → List α
  | [] => []
  | x :: xs => insertDescBy key x (sortDescBy key xs)

/-- `HistorySearcher::search`: empty query returns the first `limit`
entries with `score = frequency`; otherwise fuzzy-score each entry,
combine as `fuzzy + frequency * 10`, sort descending, truncate. -/
def search (s : Searcher) (query : List Char) (limit : Nat) : List SearchResult :=
  if query = [] then
    (s.entries.take limit).map fun e => ⟨e.command, e.frequency⟩
  else
    let results := s.entries.filterMap fun e =>
      (fuzzy_match e.command query).map fun sc => (sc + e.frequency * 10, e)
    ((sortDescBy (·.1) results).take limit).map fun p => ⟨p.2.command, p.1⟩

/-! ## Suggestion engine (`src/suggest.rs`) -/

/-- Tokenizer mode for the model of the external `shell_words` crate. -/
inductive SwMode | normal | normalEsc | single | double | doubleEsc
deriving DecidableEq

/-- Modelled from the spec: `shell_words::split` is an external crate, not
part of this repository.  Per §4.5 tokenisation is "shell-aware splitting
(respecting single/double quotes; fall back to whitespace split on parse
error)".  The model splits on whitespace, honours single and double quotes
and backslash escapes, and fails (like the crate) on an unterminated quote
or trailing backslash.  `cur = none` means no token is in progress. -/
def shellWordsAux : List Char → SwMode → Option (List Char) → List (List Char) →
    Option (List (List Char))
  | [], .normal, cur, acc =>
    some (match cur with | some t => acc ++ [t] | none => acc)
  | [], _, _, _ => none
  | c :: cs, .normal, cur, acc =>
    if isWs c then
      match cur with
      | some t => shellWordsAux cs .normal none (acc ++ [t])
      | none => shellWordsAux cs .normal none acc
    else if c = '\'' then shellWordsAux cs .single (some (cur.getD [])) acc
    else if c = '"' then shellWordsAux cs .double (some (cur.getD [])) acc
    else if c = '\\' then shellWordsAux cs .normalEsc (some (cur.getD [])) acc
    else shellWordsAux cs .normal (some (cur.getD [] ++ [c])) acc
  | c :: cs, .normalEsc, cur, acc => shellWordsAux cs .normal (some (cur.getD [] ++ [c])) acc
  | c :: cs, .single, cur, acc =>
    if c = '\'' then shellWordsAux cs .normal cur acc
    else shellWordsAux cs .single (some (cur.getD [] ++ [c])) acc
  | c :: cs, .double, cur, acc =>
    if c = '"' then shellWordsAux cs .normal cur acc
    else if c = '\\' then shellWordsAux cs .doubleEsc cur acc
    else shellWordsAux cs .double (some (cur.getD [] ++ [c])) acc
  | c :: cs, .doubleEsc, cur, acc => shellWordsAux cs .double (some (cur.getD [] ++ [c])) acc

/-- Model of `shell_words::split` (see `shellWordsAux`). -/
def shellWordsSplit (l : List Char) : Option (List (List Char)) :=
  shellWordsAux l .normal none []

/-- `ParsedArg` from `src/suggest.rs`. -/
structure ParsedArg where
  name : List Char
  value : Option (List Char)
deriving DecidableEq, Repr

/-- `ParsedCommand` from `src/suggest.rs` (field `prefixes` is `pfxs`). -/
structure ParsedCommand where
  pfxs : List (List Char)
  args : List ParsedArg
deriving DecidableEq, Repr

/-- The argument-token walk of `parse_command`: `--` terminates, a token
starting with `-` is an arg (split at the first `=`, otherwise consuming a
following non-dash token as its value), other tokens are skipped. -/
def parseArgTokens : List (List Char) → List ParsedArg
  | [] => []
  | tok :: rest =>
    if tok = ['-', '-'] then []
    else if tok.head? = some '-' then
      if '=' ∈ tok then
        ⟨tok.takeWhile (· ≠ '='), some ((tok.dropWhile (· ≠ '=')).tail)⟩ :: parseArgTokens rest
      else
        match rest with
        | next :: rest2 =>
          if next.head? = some '-' then ⟨tok, none⟩ :: parseArgTokens (next :: rest2)
          else ⟨tok, some next⟩ :: parseArgTokens rest2
        | [] => [⟨tok, none⟩]
    else parseArgTokens rest

/-- The growing space-joined prefixes `tokens[0..1]`, `tokens[0..2]`, ...
built by `parse_command` and `analyze_completed`. -/
def buildPfxs (toks : List (List Char)) : List (List Char) :=
  (List.range toks.length).map fun i => List.intercalate [' '] (toks.take (i + 1))

/-- `parse_command` from `src/suggest.rs`: shell-aware tokenisation (fall
back to whitespace split), prefixes up to the first `-` token, then the
argument walk. -/
def parse_command (cmd : List Char) : ParsedCommand :=
  let tokens := match shellWordsSplit cmd with
    | some t => t
    | none => splitWs cmd
  if tokens = [] then ⟨[], []⟩
  else
    let pfxEnd := tokens.findIdx fun t => t.head? = some '-'
    ⟨buildPfxs (tokens.take pfxEnd), parseArgTokens (tokens.drop pfxEnd)⟩

/-- `NextExpected` from `src/suggest.rs`. -/
inductive NextExpected
  | Command
  | Subcommand
  | Argument
  | Value (arg : List Char)
deriving DecidableEq, Repr

/-- `InputContext` from `src/suggest.rs` (field `prefixes` is `pfxs`). -/
structure InputContext where
  pfxs : List (List Char)
  nextExpected : NextExpected
  existingArgs : List (List Char)
deriving DecidableEq, Repr

/-- `Suggestion` from `src/suggest.rs`.  The `f32` scores are modelled
order-faithfully as natural numbers scaled by 2, so that the boosts 1.0,
1.5 and 2.0 of the source become 2, 3 and 4: every comparison, maximum
and sort below depends only on the order of the scores, which the
positive scaling preserves (all counts are integers, exactly
representable in `f32`). -/
inductive SuggestionType
  | FullCommand
  | Argument
  | ArgumentValue
deriving DecidableEq, Repr

/-- A suggestion result. -/
structure Suggestion where
  text : List Char
  score : Nat
  suggestionType : SuggestionType
deriving DecidableEq, Repr

/-- `SuggestionEngine` from `src/suggest.rs`; the `HashMap`s/`HashSet` are
modelled as association lists / lists with unique keys. -/
structure SuggestionEngine where
  argIndex : List (List Char × List (List Char × Nat))
  argValueIndex : List (List Char × List (List Char × List (List Char × Nat)))
  globalArgValues : List (List Char × List (List Char × Nat))
  valueTakingArgs : List (List Char)
deriving Repr

/-- Association-list find (model of `HashMap::get`). -/
def alFind {β : Type} : List (List Char × β) → List Char → Option β
  | [], _ => none
  | (k, v) :: rest, key => if k = key then some v else alFind rest key

/-- Association-list update (model of `HashMap::entry(k).or_default()`
followed by an update of the entry's value). -/
def alUpdate {β : Type} (d : β) (f : β → β) : List (List Char × β) → List Char →
    List (List Char × β)
  | [], key => [(key, f d)]
  | (k, v) :: rest, key =>
    if k = key then (k, f v) :: rest else (k, v) :: alUpdate d f rest key

/-- Set insertion (model of `HashSet::insert`). -/
def setInsert (s : List (List Char)) (x : List Char) : List (List Char) :=
  if x ∈ s then s else s ++ [x]

/-- One `(prefix, arg)` update of the engine's indices, with weight `w`
(the body of the double loop in `SuggestionEngine::new`). -/
def indexArgAt (w : Nat) (eng : SuggestionEngine) (pfx : List Char) (arg : ParsedArg) :
    SuggestionEngine :=
  let eng1 := { eng with argIndex := alUpdate [] (alUpdate 0 (· + w) · arg.name) eng.argIndex pfx }
  match arg.value with
  | some v =>
    { eng1 with
      argValueIndex :=
        alUpdate [] (alUpdate [] (alUpdate 0 (· + w) · v) · arg.name) eng1.argValueIndex pfx
      globalArgValues :=
        alUpdate [] (alUpdate 0 (· + w) · v) eng1.globalArgValues arg.name }
  | none => eng1

/-- Index one parsed command with weight `w` into the engine. -/
def indexParsed (w : Nat) (eng : SuggestionEngine) (parsed : ParsedCommand) :
    SuggestionEngine :=
  parsed.pfxs.foldl (fun e pfx => parsed.args.foldl (fun e2 a => indexArgAt w e2 pfx a) e) eng

/-- `SuggestionEngine::new`: index every command with weight
`max(frequency, 1)`, then compute `value_taking_args` as the key set of
`global_arg_values`. -/
def SuggestionEngine.new (commands : List IndexedCommand) : SuggestionEngine :=
  let e := commands.foldl
    (fun eng c => indexParsed (max c.frequency 1) eng (parse_command c.command))
    ⟨[], [], [], []⟩
  { e with valueTakingArgs := e.globalArgValues.map (·.1) }

/-- `SuggestionEngine::arg_takes_value`. -/
def argTakesValue (eng : SuggestionEngine) (name : List Char) : Bool :=
  name ∈ eng.valueTakingArgs

/-- Rust `str::rsplit_once(char::is_whitespace)`: split at the last
whitespace character, returning the parts before and after it. -/
def rsplitOnceWs (s : List Char) : Option (List Char × List Char) :=
  let r := s.reverse
  if r.any isWs then
    some (((r.dropWhile (fun c => ¬ isWs c)).tail).reverse,
          (r.takeWhile (fun c => ¬ isWs c)).reverse)
  else none

/-- `split_input` from `src/suggest.rs`: split the input into completed
tokens and the partial token being typed.  A trailing space means the
last token is complete; otherwise the last raw whitespace-delimited token
is the partial and everything strictly before it is shell-split. -/
def split_input (input : List Char) : List (List Char) × List Char :=
  let raw := splitWs input
  if raw = [] then ([], [])
  else if input.getLast? = some ' ' then
    (match shellWordsSplit input with
     | some t => t
     | none => raw, [])
  else
    let lastTok := raw.getLastD []
    let pfxPart := match rsplitOnceWs (trimEndL input) with
      | some (before, _) => before
      | none => []
    let completed :=
      if pfxPart = [] then []
      else match shellWordsSplit pfxPart with
        | some t => t
        | none => splitWs pfxPart
    (completed, lastTok)

/-- The argument walk of `analyze_completed`: collect existing argument
names, skipping a value token after a value-taking flag. -/
def walkArgs (eng : SuggestionEngine) : List (List Char) → List (List Char) → List (List Char)
  | [], acc => acc
  | tok :: rest, acc =>
    if tok = ['-', '-'] then acc
    else if tok.head? = some '-' then
      if '=' ∈ tok then walkArgs eng rest (setInsert acc (tok.takeWhile (· ≠ '=')))
      else
        let acc2 := setInsert acc tok
        match rest with
        | next :: rest2 =>
          if argTakesValue eng tok ∧ ¬ next.head? = some '-' then walkArgs eng rest2 acc2
          else walkArgs eng (next :: rest2) acc2
        | [] => acc2
    else walkArgs eng rest acc

/-- `SuggestionEngine::analyze_completed`: derive prefixes, the expected
next token kind and the set of argument names already present. -/
def analyze_completed (eng : SuggestionEngine) (completed : List (List Char)) : InputContext :=
  if completed = [] then ⟨[], .Command, []⟩
  else
    let pfxEnd := completed.findIdx fun t => t.head? = some '-'
    let pfxs := buildPfxs (completed.take pfxEnd)
    if pfxEnd = completed.length then ⟨pfxs, .Subcommand, []⟩
    else
      let existing := walkArgs eng (completed.drop pfxEnd) []
      let nextExp := match completed.getLast? with
        | some last =>
          if last.head? = some '-' ∧ '=' ∉ last ∧ last ≠ ['-', '-'] ∧ argTakesValue eng last
          then NextExpected.Value last
          else NextExpected.Argument
        | none => NextExpected.Command
      ⟨pfxs, nextExp, existing⟩

/-- The `scored` map update of `suggest_args` / `suggest_arg_values`:
`scored.entry(k).or_insert(0.0)` followed by `*entry = entry.max(v)`. -/
def updateMax : List (List Char × Nat) → List Char → Nat → List (List Char × Nat)
  | [], k, v => [(k, max 0 v)]
  | (k2, v2) :: rest, k, v =>
    if k2 = k then (k2, max v2 v) :: rest else (k2, v2) :: updateMax rest k v

/-- `SuggestionEngine::suggest_args`: over each prefix (innermost boosted
x2) collect `arg_index` entries whose name extends the partial token and
is not excluded, score `count * boost` keeping the max across prefixes,
sort descending, truncate. -/
def suggest_args (eng : SuggestionEngine) (pfxs : List (List Char)) (part : List Char)
    (exclude : List (List Char)) (limit : Nat) : List Suggestion :=
  let scored := pfxs.enum.foldl
    (fun scored ip =>
      let boost : Nat := if ip.1 = pfxs.length - 1 then 4 else 2
      match alFind eng.argIndex ip.2 with
      | some args =>
        args.foldl
          (fun sc nf =>
            if part <+: nf.1 ∧ nf.1 ∉ exclude then updateMax sc nf.1 (nf.2 * boost)
            else sc)
          scored
      | none => scored)
    []
  let suggestions := scored.map fun kv => Suggestion.mk kv.1 kv.2 .Argument
  (sortDescBy Suggestion.score suggestions).take limit

/-- Association-list insert-or-overwrite (model of `HashMap::insert`). -/
def alSet (m : List (List Char × Nat)) (k : List Char) (v : Nat) : List (List Char × Nat) :=
  match m with
  | [] => [(k, v)]
  | (k2, v2) :: rest => if k2 = k then (k2, v) :: rest else (k2, v2) :: alSet rest k v

/-- `SuggestionEngine::suggest_arg_values`: command-specific values per
prefix (innermost x2, others x1.5), falling back to `global_arg_values`
when empty; values must extend the partial token; sort, truncate. -/
def suggest_arg_values (eng : SuggestionEngine) (pfxs : List (List Char))
    (argName : List Char) (part : List Char) (limit : Nat) : List Suggestion :=
  let scored := pfxs.enum.foldl
    (fun scored ip =>
      let boost : Nat := if ip.1 = pfxs.length - 1 then 4 else 3
      match alFind eng.argValueIndex ip.2 with
      | some argMap =>
        match alFind argMap argName with
        | some values =>
          values.foldl
            (fun sc vf => if part <+: vf.1 then updateMax sc vf.1 (vf.2 * boost) else sc)
            scored
        | none => scored
      | none => scored)
    []
  let scored2 :=
    if scored = [] then
      match alFind eng.globalArgValues argName with
      | some values =>
        values.foldl (fun sc vf => if part <+: vf.1 then alSet sc vf.1 (vf.2 * 2) else sc) []
      | none => []
    else scored
  let suggestions := scored2.map fun kv => Suggestion.mk kv.1 kv.2 .ArgumentValue
  (sortDescBy Suggestion.score suggestions).take limit

/-- `SuggestionEngine::commands_from_searcher`: fuzzy search results as
`FullCommand` suggestions. -/
def commands_from_searcher (sr : Searcher) (query : List Char) (limit : Nat) :
    List Suggestion :=
  (search sr query limit).map fun r => Suggestion.mk r.command (r.score * 2) .FullCommand

/-- `SuggestionEngine::suggest`: route on the analysed context.  Fuzzy
results on the full trimmed input take priority in the `Subcommand`,
`Argument` and `Value` states; otherwise fall through to argument / value
suggestions as in the source. -/
def suggest (eng : SuggestionEngine) (sr : Searcher) (input : List Char) (limit : Nat) :
    List Suggestion :=
  let trimmed := trimStartL input
  if trimmed = [] then commands_from_searcher sr [] limit
  else
    let ci := split_input trimmed
    let ctx := analyze_completed eng ci.1
    match ctx.nextExpected with
    | .Command => commands_from_searcher sr ci.2 limit
    | .Subcommand =>
      let cmdResults := commands_from_searcher sr trimmed limit
      if cmdResults ≠ [] then cmdResults
      else if ci.2.head? = some '-' then suggest_args eng ctx.pfxs ci.2 ctx.existingArgs limit
      else []
    | .Argument =>
      let cmdResults := commands_from_searcher sr trimmed limit
      if cmdResults ≠ [] then cmdResults
      else suggest_args eng ctx.pfxs ci.2 ctx.existingArgs limit
    | .Value argName =>
      let cmdResults := commands_from_searcher sr trimmed limit
      if cmdResults ≠ [] then cmdResults
      else
        let valResults := suggest_arg_values eng ctx.pfxs argName ci.2 limit
        if valResults ≠ [] then valResults
        else suggest_args eng ctx.pfxs ci.2 ctx.existingArgs limit

/-! ## Parallel expansion (`src/parallel.rs`) -/

/-- `ParamDef` from `src/parallel.rs`. -/
structure ParamDef where
  name : List Char
  values : List (List Char)
deriving DecidableEq, Repr

/-- `ParamGroup` from `src/parallel.rs`: params in one group are zipped. -/
structure ParamGroup where
  params : List ParamDef
deriving DecidableEq, Repr

/-- `ParsedParallel` from `src/parallel.rs`. -/
structure ParsedParallel where
  groups : List ParamGroup
  template : List Char
deriving DecidableEq, Repr

/-- `ExpandedCommand` from `src/parallel.rs`. -/
structure ExpandedCommand where
  command : List Char
  label : List Char
deriving DecidableEq, Repr

/-- Rust `str::split_once('-')`: split at the first `-`, when present. -/
def splitOnceDash (l : List Char) : Option (List Char × List Char) :=
  if '-' ∈ l then some (l.takeWhile (· ≠ '-'), (l.dropWhile (· ≠ '-')).tail) else none

/-- Rust `format!("{:0>width$}", n)`: left-pad the rendering of `n` with
`'0'` up to `width` characters. -/
def renderPad (width : Nat) (n : Int) : List Char :=
  let d := intToChars n
  List.replicate (width - d.length) '0' ++ d

/-- The zero-pad width `parse_range` uses for `M-N`: `max(len M, len N)`
when `M`'s source text has length > 1 and begins with `'0'`, else 0 (no
padding). -/
def padWidth (sStr eStr : List Char) : Nat :=
  if sStr.length > 1 ∧ sStr.head? = some '0' then max sStr.length eStr.length else 0

/-- The inclusive integer sequence `s..=e` (empty when `e < s`). -/
def rangeVals (s e : Int) : List Int :=
  (List.range (e - s + 1).toNat).map fun k => s + k

/-- The numeric `M-N` branch of `parse_range`: parse both sides as `i64`,
fail when `start > end`, else render the inclusive sequence with the
zero-padding rule. -/
def parseNumericRange (sStr eStr : List Char) : Option (List (List Char)) :=
  match parseI64 sStr, parseI64 eStr with
  | some s, some e =>
    if s > e then none
    else some ((rangeVals s e).map (renderPad (padWidth sStr eStr)))
  | some _, none => none
  | none, _ => none

/-- `parse_range` from `src/parallel.rs`: comma list, else `M-N` numeric
range (fails when `M > N` or either side does not parse), else singleton. -/
def parse_range (rng : List Char) : Option (List (List Char)) :=
  if ',' ∈ rng then some ((rng.splitOn ',').map trimL)
  else
    match splitOnceDash rng with
    | some (sStr, eStr) => parseNumericRange sStr eStr
    | none => some [rng]

/-- One `name=range` item inside a bracket block (`split_once('=')` then
`parse_range`). -/
def parseParamDef (item : List Char) : Option ParamDef :=
  if '=' ∈ item then
    (parse_range ((item.dropWhile (· ≠ '=')).tail)).map fun vs =>
      ⟨item.takeWhile (· ≠ '='), vs⟩
  else none

/-- Rust `str::strip_prefix('[')` specialised to one character. -/
def stripHeadChar (c : Char) (l : List Char) : Option (List Char) :=
  match l with
  | x :: xs => if x = c then some xs else none
  | [] => none

/-- Rust `str::strip_suffix(']')` specialised to one character. -/
def stripLastChar (c : Char) (l : List Char) : Option (List Char) :=
  match l.reverse with
  | x :: xs => if x = c then some xs.reverse else none
  | [] => none

/-- `parse_bracket_block` from `src/parallel.rs`: strip `[` and `]`, parse
each whitespace-separated `name=range`, reject empty param lists and
zip-length mismatches. -/
def parse_bracket_block (block : List Char) : Option ParamGroup :=
  match stripHeadChar '[' block with
  | none => none
  | some mid =>
    match stripLastChar ']' mid with
    | none => none
    | some inner =>
      match (splitWs inner).mapM parseParamDef with
      | none => none
      | some params =>
        if params.length > 1 ∧
            params.any fun p => p.values.length ≠ (params.headD ⟨[], []⟩).values.length then
          none
        else if params = [] then none
        else some ⟨params⟩

/-- The block-consuming loop of `parse_parallel` (fuel-structured; fuel
`remaining.length + 1` always suffices since every iteration consumes at
least the opening bracket). -/
def parseLoopF : Nat → List Char → List ParamGroup → Option (List ParamGroup × List Char)
  | 0, _, _ => none
  | fuel + 1, remaining, groups =>
    if remaining.head? = some '[' then
      match remaining.findIdx? (· = ']') with
      | none => none
      | some close =>
        match parse_bracket_block (remaining.take (close + 1)) with
        | none => none
        | some g =>
          parseLoopF fuel (trimStartL (remaining.drop (close + 1))) (groups ++ [g])
    else some (groups, remaining)

/-- `parse_parallel` from `src/parallel.rs`: trim, require a leading `[`,
consume bracket blocks, require a non-empty template remainder. -/
def parse_parallel (input : List Char) : Option ParsedParallel :=
  let trimmed := trimL input
  if trimmed.head? = some '[' then
    match parseLoopF (trimmed.length + 1) trimmed [] with
    | none => none
    | some (groups, remaining) =>
      if groups = [] ∨ remaining = [] then none
      else some ⟨groups, remaining⟩
  else none

/-- The zip length of a group: the value-list length of its first param
(`group.params[0].values.len()` in `expand`). -/
def zipLen (g : ParamGroup) : Nat :=
  match g.params.head? with
  | some p => p.values.length
  | none => 0

/-- The per-group rows built by `expand`: row `i` assigns to every param
of the group its `i`-th value. -/
def groupRows (g : ParamGroup) : List (List (List Char × List Char)) :=
  (List.range (zipLen g)).map fun i => g.params.map fun p => (p.name, p.values.getD i [])

/-- One cross-product step of `expand`: extend every existing combination
with every row of the next group. -/
def crossStep (combos rows : List (List (List Char × List Char))) :
    List (List (List Char × List Char)) :=
  combos.flatMap fun ex => rows.map fun row => ex ++ row

/-- Rust `str::replace` (all non-overlapping occurrences, left to right),
fuel-structured on the haystack length; `pat` must be non-empty. -/
def replaceAllF (pat rep : List Char) : Nat → List Char → List Char
  | 0, s => s
  | _ + 1, [] => []
  | fuel + 1, c :: cs =>
    if pat.isPrefixOf (c :: cs) then rep ++ replaceAllF pat rep fuel (cs.drop (pat.length - 1))
    else c :: replaceAllF pat rep fuel cs

/-- Rust `str::replace`. -/
def replaceAll (pat rep s : List Char) : List Char :=
  if pat = [] then s else replaceAllF pat rep s.length s

/-- The opening brace character (0x7b). -/
def lbrace : Char := Char.ofNat 123

/-- The closing brace character (0x7d). -/
def rbrace : Char := Char.ofNat 125

/-- Substitution and label building for one assignment list in `expand`:
replace each `(lbrace name rbrace)` token (and bare `lbrace rbrace` when
there is exactly one group with exactly one param), and append a
`[name=value]` fragment to the label. -/
def substAssign (parsed : ParsedParallel) (assigns : List (List Char × List Char)) :
    ExpandedCommand :=
  let cl := assigns.foldl
    (fun (cl : List Char × List Char) nv =>
      let cmd1 := replaceAll (lbrace :: nv.1 ++ [rbrace]) nv.2 cl.1
      let single : Bool := decide (parsed.groups.length = 1) &&
        (match parsed.groups.head? with
         | some g => decide (g.params.length = 1)
         | none => false)
      let cmd2 := if single then replaceAll [lbrace, rbrace] nv.2 cmd1 else cmd1
      (cmd2, cl.2 ++ '[' :: nv.1 ++ '=' :: nv.2 ++ [']']))
    (parsed.template, [])
  ⟨cl.1, cl.2⟩

/-- `expand` from `src/parallel.rs`: build per-group rows, cross-product
them starting from the empty combination, substitute into the template. -/
def expand (parsed : ParsedParallel) : List ExpandedCommand :=
  let combinations := (parsed.groups.map groupRows).foldl crossStep [[]]
  combinations.map (substAssign parsed)

/-! ## Task runner (`src/runner.rs`) -/

/-- `StreamType` from `src/runner.rs`. -/
inductive StreamType
  | Output
  | Status
deriving DecidableEq, Repr

/-- One `OutputMessage` of a single task (the constant `task_id` and
`runner_label` fields are omitted: every claim below concerns a single
task's own message sequence). -/
structure Msg where
  stream : StreamType
  content : List Char
deriving DecidableEq, Repr

/-- One event observed by the PTY read loop: a chunk of bytes delivered by
`reader.read` (decoded, as in the source, before line splitting), or a
read error (`Err(_)`). -/
inductive ReadEv
  | chunk (s : List Char)
  | rerr
deriving DecidableEq, Repr

/-- The environment a single task runs against: whether PTY setup
(`openpty` / `spawn_command` / lock / `try_clone_reader`) fails and with
what message, the sequence of read events, whether `child.wait()` fails,
and otherwise the child's exit code.  The output channel is modelled as
always accepting messages. -/
structure TaskEnv where
  setupErr : Option (List Char)
  reads : List ReadEv
  waitErr : Option (List Char)
  exitCode : Nat
deriving DecidableEq, Repr

/-- Rust `str::trim_end_matches('\r')`: drop every trailing `'\r'`. -/
def stripTrailingCr (l : List Char) : List Char :=
  (l.reverse.dropWhile (· = '\r')).reverse

/-- Newline splitting of the buffered PTY data (the inner `while let` of
`run_task_blocking`): `cur` is the pending incomplete line, complete
lines have their trailing `'\r'`s stripped. -/
def extractLinesAux (cur : List Char) : List Char → List (List Char) × List Char
  | [] => ([], cur)
  | c :: cs =>
    if c = '\n' then
      let r := extractLinesAux [] cs
      (stripTrailingCr cur :: r.1, r.2)
    else extractLinesAux (cur ++ [c]) cs

/-- The PTY read loop of `run_task_blocking`: chunks are appended to the
pending partial line and complete lines extracted; a read error breaks
the loop (it is not reported).  Returns the emitted lines and the final
partial line. -/
def procReads : List ReadEv → List Char → List (List Char) × List Char
  | [], part => ([], part)
  | .chunk s :: rest, part =>
    let r := extractLinesAux part s
    let r2 := procReads rest r.2
    (r.1 ++ r2.1, r2.2)
  | .rerr :: _, part => ([], part)

/-- `run_task_blocking` from `src/runner.rs`: on setup failure, `Err` with
no output; otherwise run the read loop, flush a non-empty partial line,
then `wait()` the child and produce the exit message (`"completed"` on
success, `"exited with code N"` otherwise).  Returns the Output lines
emitted and the result the async wrapper sees. -/
def run_task_blocking (env : TaskEnv) : List (List Char) × Except (List Char) (List Char) :=
  match env.setupErr with
  | some e => ([], .error e)
  | none =>
    let r := procReads env.reads []
    let outs := r.1 ++ (if r.2 = [] then [] else [stripTrailingCr r.2])
    match env.waitErr with
    | some e => (outs, .error e)
    | none =>
      (outs, .ok (if env.exitCode = 0 then str "completed"
                  else str "exited with code " ++ natToChars env.exitCode))

/-- The terminal status content `run_task` sends: the blocking result's
message, or `"error: <msg>"` when the blocking part returned `Err`. -/
def terminalContent (env : TaskEnv) : List Char :=
  match (run_task_blocking env).2 with
  | .ok m => m
  | .error e => str "error: " ++ e

/-- `run_task` from `src/runner.rs`: `"started"`, then the blocking part's
Output lines, then exactly one terminal Status message. -/
def run_task (env : TaskEnv) : List Msg :=
  Msg.mk .Status (str "started") ::
    ((run_task_blocking env).1.map fun o => Msg.mk .Output o) ++
      [Msg.mk .Status (terminalContent env)]

/-! ## Concrete instances used by the claims -/

/-- The history of spec §8 scenario 4: `cargo test --run sample_run` with
frequency 7 and `cargo test --run integration_test` with frequency 4. -/
def histCommandsC1 : List IndexedCommand :=
  [⟨4, str "cargo test --run sample_run", 7, some 4000⟩,
   ⟨5, str "cargo test --run integration_test", 4, some 5000⟩]

/-- The suggestion engine built from that history. -/
def engineC1 : SuggestionEngine := SuggestionEngine.new histCommandsC1

/-- The searcher loaded from that history (frequency-descending order). -/
def searcherC1 : Searcher := ⟨histCommandsC1⟩

/-- A searcher over an empty command store. -/
def searcherEmpty : Searcher := ⟨[]⟩

/-- The parse of `"[a=1-2] [b=x,y] cmd run"` (witness input for the
parallel cardinality claim). -/
def parsedC6 : ParsedParallel :=
  ⟨[⟨[⟨str "a", [str "1", str "2"]⟩]⟩, ⟨[⟨str "b", [str "x", str "y"]⟩]⟩], str "cmd run"⟩

/-! ## Theorems -/

/-- Fold invariant: a property preserved by every step holds of a left
fold's result. -/
theorem foldlInv {α β : Type} (P : β → Prop) (f : β → α → β) :
    ∀ (l : List α) (init : β), P init → (∀ b a, a ∈ l → P b → P (f b a)) →
      P (l.foldl f init) := by
  intro l
  induction l with
  | nil => intro init h _; exact h
  | cons a l ih =>
    intro init h hstep
    exact ih (f init a) (hstep init a (by simp) h)
      fun b a2 ha2 hb => hstep b a2 (by simp [ha2]) hb

/-- Claim C4.  During an incremental sync, the entries passed to
insert-or-update are exactly those whose timestamp is present and strictly
newer than the stored sync timestamp, or absent with index at least the
stored line count; a shell without a sync-state row behaves as `(0, 0)`. -/
theorem c4_sync_filter (lastTs : Int) (lastCnt : Nat) (hist : List HistoryEntry) :
    (∀ (i : Nat) (e : HistoryEntry),
        ((i, e) ∈ hist.enum.filter fun p => syncKeep lastTs lastCnt p.1 p.2) ↔
          (i, e) ∈ hist.enum ∧
            ((∃ ts, e.timestamp = some ts ∧ ts > lastTs) ∨
              (e.timestamp = none ∧ i ≥ lastCnt))) ∧
      filterNewCommands hist lastTs lastCnt =
        (hist.enum.filter fun p => syncKeep lastTs lastCnt p.1 p.2).map (·.2) ∧
      ∀ (tbl : SyncTable) (sh : String),
        List.lookup sh tbl = none → get_sync_state tbl sh = (0, 0) := by
  refine ⟨?_, rfl, ?_⟩
  · intro i e
    rw [List.mem_filter]
    refine and_congr_right fun _ => ?_
    cases hts : e.timestamp with
    | some ts => simp [syncKeep, hts]
    | none => simp [syncKeep, hts]
  · intro tbl sh h
    simp [get_sync_state, h]

/-- Witness for C4 at a concrete instance: the empty table yields the
default sync state. -/
theorem c4_sync_filter_witness : get_sync_state [] "Bash" = (0, 0) :=
  (c4_sync_filter 0 0 []).2.2 [] "Bash" rfl

/-- Claim C5.  A second sync pass over an unchanged history file keeps no
entry: after the first pass stored the wall-clock time `now1` (which is at
least every entry timestamp) and the total line count, every timestamped
entry fails `ts > now1` and every untimestamped entry at index `i` fails
`i ≥ length`. -/
theorem c5_resync_empty (hist : List HistoryEntry) (now1 : Int)
    (h : ∀ e ∈ hist, ∀ ts, e.timestamp = some ts → ts ≤ now1) :
    filterNewCommands hist (update_sync_state now1 hist.length).1
      (update_sync_state now1 hist.length).2 = [] := by
  unfold filterNewCommands update_sync_state
  rw [List.map_eq_nil_iff, List.filter_eq_nil_iff]
  intro p hp
  rw [List.mem_enum_iff_getElem?] at hp
  have hlt : p.1 < hist.length := by
    by_contra hge
    rw [List.getElem?_eq_none (Nat.le_of_not_lt hge)] at hp
    exact Option.noConfusion hp
  have hmem : p.2 ∈ hist := by
    obtain ⟨hpl, hget⟩ := List.getElem?_eq_some.mp hp
    exact hget ▸ List.getElem_mem hpl
  cases hts : p.2.timestamp with
  | some ts =>
    have := h p.2 hmem ts hts
    simp [syncKeep, hts]
    omega
  | none =>
    simp [syncKeep, hts]
    omega

/-- Witness for C5: a one-entry history with timestamp 5 synced at time 10
yields nothing on the second pass. -/
theorem c5_resync_empty_witness :
    filterNewCommands [⟨str "ls", some 5⟩] (update_sync_state 10 1).1
      (update_sync_state 10 1).2 = [] :=
  c5_resync_empty [⟨str "ls", some 5⟩] 10 (by
    intro e he ts hts
    simp only [List.mem_singleton] at he
    subst he
    simp only [Option.some.injEq] at hts
    omega)

/-- Claim C9.  Every task's message sequence is the Status `"started"`,
then its Output lines, then the terminal Status message: `"started"`
precedes every Output line and all Output lines precede the terminal
status. -/
theorem c9_message_order (env : TaskEnv) :
    ∃ outs : List Msg,
      run_task env =
          Msg.mk .Status (str "started") :: outs ++ [Msg.mk .Status (terminalContent env)] ∧
        ∀ m ∈ outs, m.stream = .Output := by
  refine ⟨(run_task_blocking env).1.map fun o => Msg.mk .Output o, rfl, ?_⟩
  intro m hm
  obtain ⟨o, _, rfl⟩ := List.mem_map.mp hm
  rfl

/-- Counterexample to claim C3 as stated: a PTY read failure does not
produce a terminal `"error: <msg>"` status.  The read loop treats
`Err(_)` exactly like EOF (`break`), and the task then reports the
child's exit status -- here `"completed"`. -/
theorem c3_counterexample :
    run_task ⟨none, [ReadEv.rerr], none, 0⟩ =
        [Msg.mk .Status (str "started"), Msg.mk .Status (str "completed")] ∧
      ∀ m ∈ run_task ⟨none, [ReadEv.rerr], none, 0⟩,
        List.isPrefixOf (str "error: ") m.content = false := by
  decide

/-- Claim C3, amended.  Exactly one terminal Status is emitted per task
(the Status messages are precisely `"started"` and the terminal one); the
terminal content is `"error: <msg>"` when setup/spawn (or `wait`) fails,
`"completed"` on exit code 0 and `"exited with code N"` on non-zero exit
code N.  A PTY read failure merely ends the read loop (see
`c3_counterexample`); it does not produce an error status. -/
theorem c3_terminal_status (env : TaskEnv) :
    (run_task env).filter (fun m => decide (m.stream = StreamType.Status)) =
        [Msg.mk .Status (str "started"), Msg.mk .Status (terminalContent env)] ∧
      (∀ e, env.setupErr = some e → terminalContent env = str "error: " ++ e) ∧
      (env.setupErr = none → env.waitErr = none → env.exitCode = 0 →
        terminalContent env = str "completed") ∧
      (env.setupErr = none → env.waitErr = none → env.exitCode ≠ 0 →
        terminalContent env = str "exited with code " ++ natToChars env.exitCode) := by
  refine ⟨?_, ?_, ?_, ?_⟩
  · have h0 : ∀ L : List (List Char),
        (L.map fun o => Msg.mk .Output o).filter
          (fun m => decide (m.stream = StreamType.Status)) = [] := by
      intro L
      rw [List.filter_eq_nil_iff]
      intro a ha
      obtain ⟨o, _, rfl⟩ := List.mem_map.mp ha
      simp
    show (Msg.mk .Status (str "started") ::
        ((run_task_blocking env).1.map fun o => Msg.mk .Output o) ++
          [Msg.mk .Status (terminalContent env)]).filter _ = _
    simp [List.filter_append, h0, List.filter]
  · intro e he
    simp [terminalContent, run_task_blocking, he]
  · intro h1 h2 h3
    simp [terminalContent, run_task_blocking, h1, h2, h3]
  · intro h1 h2 h3
    simp [terminalContent, run_task_blocking, h1, h2, h3]

/-- Witness for C3 (amended) at a concrete environment: exit code 2 yields
the terminal status `"exited with code 2"`. -/
theorem c3_terminal_status_witness :
    terminalContent ⟨none, [], none, 2⟩ = str "exited with code " ++ natToChars 2 :=
  (c3_terminal_status ⟨none, [], none, 2⟩).2.2.2 rfl rfl (by decide)

/-- Counterexample to claim C1 as stated: with the suggestion engine AND
the searcher both built from the given history, the fuzzy search on the
full trimmed input `"cargo test --run sam"` matches
`cargo test --run sample_run` (and not `...integration_test`, which has
no `m`), so `suggest` returns that full command as a `FullCommand`
suggestion -- the first element is not `{text: "sample_run",
type: ArgumentValue}`. -/
theorem c1_counterexample :
    ((suggest engineC1 searcherC1 (str "cargo test --run sam") 10).map fun s =>
        (s.text, s.suggestionType)) =
        [(str "cargo test --run sample_run", SuggestionType.FullCommand)] ∧
      ∀ s ∈ suggest engineC1 searcherC1 (str "cargo test --run sam") 10,
        ¬(s.text = str "sample_run" ∧ s.suggestionType = SuggestionType.ArgumentValue) := by
  decide

/-- Claim C1, amended.  With the suggestion engine built from the history
(`cargo test --run sample_run` x7, `cargo test --run integration_test`
x4) but the fuzzy search returning no results (empty searcher -- the
setup of the source's own test), `suggest("cargo test --run sam", 10)`
returns exactly `[{text: "sample_run", type: ArgumentValue}]`, and in
particular no element with text `"integration_test"`. -/
theorem c1_value_suggestion :
    ((suggest engineC1 searcherEmpty (str "cargo test --run sam") 10).map fun s =>
        (s.text, s.suggestionType)) =
        [(str "sample_run", SuggestionType.ArgumentValue)] ∧
      ∀ s ∈ suggest engineC1 searcherEmpty (str "cargo test --run sam") 10,
        s.text ≠ str "integration_test" := by
  decide

/-- Counting one occurrence of `c` is the same as: `c` occurs, and does
not occur again after the first occurrence. -/
theorem count_one_iff (c : Char) (m : List Char) :
    m.count c = 1 ↔ c ∈ m ∧ c ∉ (m.dropWhile (· ≠ c)).tail := by
  induction m with
  | nil => simp
  | cons a m ih =>
    by_cases hac : a = c
    · subst hac
      simp [List.count_cons, List.dropWhile, List.count_eq_zero]
    · simp [List.count_cons, hac, List.dropWhile, Ne.symm hac, ih]

/-- The code's zsh extended-line parser agrees with the spec-worded form
(in particular, the metadata needs exactly one `:` and only the `<ts>`
field is parsed). -/
theorem zsh_code_eq_spec (l : List Char) :
    parse_zsh_extended_line l = zshExtendedSpecForm l := by
  rcases l with _ | ⟨c1, _ | ⟨c2, rest⟩⟩
  · rfl
  · rfl
  · simp only [parse_zsh_extended_line, zshExtendedSpecForm]
    by_cases h12 : c1 = ':' ∧ c2 = ' '
    · rw [if_pos h12, if_pos h12]
      by_cases hsem : ';' ∈ rest
      · rw [if_pos hsem, if_pos hsem]
        by_cases hcol : ':' ∈ rest.takeWhile (· ≠ ';')
        · rw [if_pos hcol]
          by_cases hafter : ':' ∈ ((rest.takeWhile (· ≠ ';')).dropWhile (· ≠ ':')).tail
          · rw [if_pos hafter, if_neg (by rw [count_one_iff]; exact fun h => h.2 hafter)]
          · rw [if_neg hafter, if_pos (count_one_iff ':' _ |>.mpr ⟨hcol, hafter⟩)]
        · rw [if_neg hcol, if_neg (by rw [count_one_iff]; exact fun h => hcol h.1)]
      · rw [if_neg hsem, if_neg hsem]
    · rw [if_neg h12, if_neg h12]

/-- Counterexample to claim C2 as stated: the `<dur>` field is never
validated as an integer.  The line `": 123:abc;cmd"` has a non-numeric
duration, so per the claim it should be a bare command with no timestamp,
but the code parses it as an extended entry with timestamp 123. -/
theorem c2_counterexample :
    parse_zsh_extended_line (str ": 123:abc;cmd") = some ⟨str "cmd", some 123⟩ ∧
      parseI64 (str "abc") = none := by
  decide

/-- Claim C2, amended.  Per joined line: a line parses as extended history
-- timestamp from the metadata, command everything after the first `;` --
iff it starts with `": "`, contains a `;`, the metadata before the first
`;` has exactly two colon-separated fields, and the `<ts>` field parses as
an integer (the `<dur>` field is NOT validated, see `c2_counterexample`);
every other non-empty line is a bare command with no timestamp, and empty
joined lines are skipped. -/
theorem c2_zsh_line_form :
    (∀ l, parse_zsh_extended_line l = zshExtendedSpecForm l) ∧
      ∀ ls : List (List Char),
        zshSecondPass ls =
          (ls.filter fun l => decide (l ≠ [])).map fun l =>
            (zshExtendedSpecForm l).getD ⟨l, none⟩ := by
  refine ⟨zsh_code_eq_spec, ?_⟩
  intro ls
  induction ls with
  | nil => rfl
  | cons l ls ih =>
    by_cases hl : l = []
    · simp [zshSecondPass, hl] at ih ⊢
      exact ih
    · simp [zshSecondPass, hl, List.filter_cons] at ih ⊢
      exact ⟨congrArg (fun o => Option.getD o ⟨l, none⟩) (zsh_code_eq_spec l), ih⟩

/-- Every character of a successfully parsed digit run is a digit. -/
theorem digitsToNat_isDigit {s : List Char} {n : Nat} (h : digitsToNat s = some n) :
    ∀ c ∈ s, c.isDigit = true := by
  unfold digitsToNat at h
  split at h
  · next hc => exact fun c hcs => List.all_eq_true.mp hc.2 c hcs
  · exact absurd h (by simp)

/-- Every character after the sign position of a successfully parsed
`i64` string is a digit. -/
theorem parseI64_tail_digits {c : Char} {rest : List Char} {v : Int}
    (h : parseI64 (c :: rest) = some v) : ∀ d ∈ rest, d.isDigit = true := by
  simp only [parseI64] at h
  by_cases hp : c = '+'
  · rw [if_pos hp] at h
    obtain ⟨n, hn, _⟩ := Option.bind_eq_some.mp h
    exact digitsToNat_isDigit hn
  · rw [if_neg hp] at h
    by_cases hm : c = '-'
    · rw [if_pos hm] at h
      obtain ⟨n, hn, _⟩ := Option.bind_eq_some.mp h
      exact digitsToNat_isDigit hn
    · rw [if_neg hm] at h
      obtain ⟨n, hn, _⟩ := Option.bind_eq_some.mp h
      exact fun d hd => digitsToNat_isDigit hn d (by simp [hd])

/-- The first character of a successfully parsed `i64` string is a digit
or a sign. -/
theorem parseI64_head_shape {c : Char} {rest : List Char} {v : Int}
    (h : parseI64 (c :: rest) = some v) : c.isDigit = true ∨ c = '+' ∨ c = '-' := by
  by_cases hp : c = '+'
  · exact .inr (.inl hp)
  by_cases hm : c = '-'
  · exact .inr (.inr hm)
  left
  simp only [parseI64] at h
  rw [if_neg hp, if_neg hm] at h
  obtain ⟨n, hn, _⟩ := Option.bind_eq_some.mp h
  exact digitsToNat_isDigit hn c (by simp)

/-- A string that parses as an `i64` contains no comma. -/
theorem parseI64_no_comma {s : List Char} {v : Int} (h : parseI64 s = some v) : ',' ∉ s := by
  rcases s with _ | ⟨c, rest⟩
  · simp
  · intro hmem
    rcases List.mem_cons.mp hmem with hc | hrest
    · rcases parseI64_head_shape h with hd | hp | hm
      · rw [← hc] at hd
        exact absurd hd (by decide)
      · rw [hp] at hc
        exact absurd hc (by decide)
      · rw [hm] at hc
        exact absurd hc (by decide)
    · exact absurd (parseI64_tail_digits h ',' hrest) (by decide)

/-- A string that parses as an `i64` and does not start with `-` contains
no `-` at all. -/
theorem parseI64_no_dash {s : List Char} {v : Int} (h : parseI64 s = some v)
    (hh : s.head? ≠ some '-') : '-' ∉ s := by
  rcases s with _ | ⟨c, rest⟩
  · simp
  · intro hmem
    have hcne : c ≠ '-' := by simpa using hh
    rcases List.mem_cons.mp hmem with hc | hrest
    · exact hcne hc.symm
    · exact absurd (parseI64_tail_digits h '-' hrest) (by decide)

/-- `takeWhile` runs through a block on which the predicate holds. -/
theorem takeWhile_append_all {p : Char → Bool} {M : List Char}
    (h : ∀ c ∈ M, p c = true) (N : List Char) :
    (M ++ N).takeWhile p = M ++ N.takeWhile p := by
  induction M with
  | nil => rfl
  | cons a M ih =>
    rw [List.cons_append, List.takeWhile_cons, if_pos (h a (by simp)),
      ih fun c hc => h c (by simp [hc]), List.cons_append]

/-- `dropWhile` runs through a block on which the predicate holds. -/
theorem dropWhile_append_all {p : Char → Bool} {M : List Char}
    (h : ∀ c ∈ M, p c = true) (N : List Char) :
    (M ++ N).dropWhile p = N.dropWhile p := by
  induction M with
  | nil => rfl
  | cons a M ih =>
    rw [List.cons_append, List.dropWhile_cons, if_pos (h a (by simp))]
    exact ih fun c hc => h c (by simp [hc])

/-- `split_once('-')` on `M-N` splits at the separating dash when `M`
itself contains none. -/
theorem splitOnceDash_concat {M : List Char} (h : '-' ∉ M) (N : List Char) :
    splitOnceDash (M ++ '-' :: N) = some (M, N) := by
  have hp : ∀ c ∈ M, (decide (c ≠ '-')) = true := fun c hc => by
    simp
    exact fun he => h (he ▸ hc)
  unfold splitOnceDash
  rw [if_pos (by simp)]
  rw [takeWhile_append_all hp, dropWhile_append_all hp]
  simp [List.takeWhile_cons, List.dropWhile_cons]

/-- Claim C7, amended.  For `M-N` with both sides parsing as `i64` and `M`
not beginning with `'-'` (a negative `M` makes `split_once('-')` cut at
`M`'s own sign, so parsing fails -- see `c7_counterexample`): when
`M ≤ N` the values are the inclusive sequence rendered with zero padding
to `max(len M, len N)` exactly when `M` has length > 1 and begins with
`'0'`; when `M > N` parsing fails. -/
theorem c7_numeric_range (M N : List Char) (vM vN : Int)
    (hM : parseI64 M = some vM) (hN : parseI64 N = some vN)
    (hneg : M.head? ≠ some '-') :
    parse_range (M ++ '-' :: N) =
      if vM ≤ vN then some ((rangeVals vM vN).map (renderPad (padWidth M N)))
      else none := by
  have hdM : '-' ∉ M := parseI64_no_dash hM hneg
  have hcM : ',' ∉ M := parseI64_no_comma hM
  have hcN : ',' ∉ N := parseI64_no_comma hN
  have hcc : ',' ∉ M ++ '-' :: N := by
    simp only [List.mem_append, List.mem_cons]
    rintro (hc | hc | hc)
    · exact hcM hc
    · exact absurd hc (by decide)
    · exact hcN hc
  unfold parse_range
  rw [if_neg hcc, splitOnceDash_concat hdM]
  show parseNumericRange M N = _
  unfold parseNumericRange
  rw [hM, hN]
  show (if vM > vN then none else some ((rangeVals vM vN).map (renderPad (padWidth M N)))) = _
  by_cases hle : vM ≤ vN
  · rw [if_pos hle, if_neg (by omega)]
  · rw [if_neg hle, if_pos (by omega)]

/-- Counterexample to claim C7 as stated: take `M = "-3"`, `N = "5"`; both
parse as decimal integers and `M ≤ N`, yet `parse_range "-3-5"` fails
(`split_once('-')` splits at `M`'s sign, leaving an empty integer), where
the claim demands the inclusive sequence `-3..5`. -/
theorem c7_counterexample :
    str "-3-5" = str "-3" ++ '-' :: str "5" ∧
      parseI64 (str "-3") = some (-3) ∧
      parseI64 (str "5") = some 5 ∧
      ((-3 : Int) ≤ 5) ∧
      parse_range (str "-3-5") = none := by
  decide

/-- Witness for C7 (amended) at `"01-10"`: both sides parse, `M` does not
begin with `'-'`, and the result is the padded sequence (padding width 2
since `"01"` has length 2 and begins with `'0'`). -/
theorem c7_numeric_range_witness :
    parseI64 (str "01") = some 1 ∧
      parseI64 (str "10") = some 10 ∧
      (str "01").head? ≠ some '-' ∧
      parse_range (str "01" ++ '-' :: str "10") =
        (if (1 : Int) ≤ 10 then
          some ((rangeVals 1 10).map (renderPad (padWidth (str "01") (str "10"))))
         else none) :=
  ⟨by decide, by decide, by decide,
    c7_numeric_range (str "01") (str "10") 1 10 (by decide) (by decide) (by decide)⟩

/-- A group produced by `parse_bracket_block` is non-empty and all its
params have the group's zip length (the mismatch check rejects the
rest). -/
theorem parse_bracket_block_good {b : List Char} {g : ParamGroup}
    (h : parse_bracket_block b = some g) :
    g.params ≠ [] ∧ ∀ p ∈ g.params, p.values.length = zipLen g := by
  unfold parse_bracket_block at h
  split at h
  · exact absurd h (by simp)
  split at h
  · exact absurd h (by simp)
  split at h
  · exact absurd h (by simp)
  next params heq =>
  split at h
  · exact absurd h (by simp)
  next hz =>
  split at h
  · exact absurd h (by simp)
  next he =>
  obtain rfl := (Option.some.inj h).symm
  refine ⟨he, ?_⟩
  rcases params with _ | ⟨p0, rest⟩
  · exact absurd rfl he
  intro p hp
  rcases List.mem_cons.mp hp with hp0 | hpr
  · rw [hp0]
    rfl
  · rcases rest with _ | ⟨p1, rest2⟩
    · exact absurd hpr (List.not_mem_nil p)
    · have hlen : (p0 :: p1 :: rest2).length > 1 := by simp
      have hany := (not_and.mp hz) hlen
      rw [List.any_eq_true] at hany
      push_neg at hany
      have := hany p (by simp [hpr])
      simpa [zipLen] using this

/-- Every group accumulated by the bracket-consuming loop either was in
the initial accumulator or came from `parse_bracket_block`. -/
theorem parseLoopF_groups :
    ∀ (fuel : Nat) (rem : List Char) (gs : List ParamGroup) (res : List ParamGroup × List Char),
      parseLoopF fuel rem gs = some res →
      ∀ g ∈ res.1, g ∈ gs ∨
        (g.params ≠ [] ∧ ∀ p ∈ g.params, p.values.length = zipLen g) := by
  intro fuel
  induction fuel with
  | zero =>
    intro rem gs res h
    exact absurd h (by simp [parseLoopF])
  | succ n ih =>
    intro rem gs res h
    simp only [parseLoopF] at h
    split at h
    · split at h
      · exact absurd h (by simp)
      split at h
      · exact absurd h (by simp)
      next g0 hp =>
      intro g hg
      rcases ih _ _ _ h g hg with hin | hgood
      · rcases List.mem_append.mp hin with h1 | h2
        · exact .inl h1
        · right
          rw [List.mem_singleton.mp h2]
          exact parse_bracket_block_good hp
      · exact .inr hgood
    · obtain rfl := (Option.some.inj h)
      exact fun g hg => .inl hg

/-- One cross-product step multiplies the combination count. -/
theorem length_crossStep (combos rows : List (List (List Char × List Char))) :
    (crossStep combos rows).length = combos.length * rows.length := by
  induction combos with
  | nil => simp [crossStep]
  | cons x xs ih =>
    have hstep : crossStep (x :: xs) rows =
        (rows.map fun row => x ++ row) ++ crossStep xs rows := by
      simp [crossStep, List.flatMap_cons]
    rw [hstep, List.length_append, List.length_map, ih, List.length_cons]
    ring

/-- Folding cross-product steps multiplies all the row counts. -/
theorem length_foldl_cross :
    ∀ (rss : List (List (List (List Char × List Char))))
      (acc : List (List (List Char × List Char))),
      (rss.foldl crossStep acc).length = acc.length * (rss.map List.length).prod := by
  intro rss
  induction rss with
  | nil => intro acc; simp
  | cons rows rss ih =>
    intro acc
    rw [List.foldl_cons, ih, length_crossStep, List.map_cons, List.prod_cons]
    ring

/-- A group contributes exactly `zipLen` rows. -/
theorem length_groupRows (g : ParamGroup) : (groupRows g).length = zipLen g := by
  simp [groupRows]

/-- `expand` produces exactly the product of the groups' zip lengths. -/
theorem length_expand (parsed : ParsedParallel) :
    (expand parsed).length = (parsed.groups.map zipLen).prod := by
  unfold expand
  rw [List.length_map, length_foldl_cross, List.map_map]
  simp [Function.comp_def, length_groupRows]

/-- Claim C6.  For a successfully parsed parallel input: every group's
params are non-empty and share the group's zip length (a zip-length
mismatch inside one bracket block makes parsing fail), and `expand`
returns exactly the product of the zip lengths. -/
theorem c6_parallel_cardinality (input : List Char) (parsed : ParsedParallel)
    (h : parse_parallel input = some parsed) :
    (∀ g ∈ parsed.groups, g.params ≠ [] ∧ ∀ p ∈ g.params, p.values.length = zipLen g) ∧
      (expand parsed).length = (parsed.groups.map zipLen).prod := by
  refine ⟨?_, length_expand parsed⟩
  unfold parse_parallel at h
  by_cases hb : (trimL input).head? = some '['
  · rw [if_pos hb] at h
    rcases hl : parseLoopF ((trimL input).length + 1) (trimL input) [] with _ | gr
    · rw [hl] at h
      exact absurd h (by simp)
    obtain ⟨groups, remaining⟩ := gr
    rw [hl] at h
    have h2 : (if groups = [] ∨ remaining = [] then none
        else some (ParsedParallel.mk groups remaining)) = some parsed := h
    by_cases hge : groups = [] ∨ remaining = []
    · rw [if_pos hge] at h2
      exact absurd h2 (by simp)
    · rw [if_neg hge] at h2
      obtain rfl := (Option.some.inj h2)
      intro g hg
      rcases parseLoopF_groups _ _ _ _ hl g hg with hin | hgood
      · exact absurd hin (List.not_mem_nil g)
      · exact hgood
  · rw [if_neg hb] at h
    exact absurd h (by simp)

/-- Witness for C6 at `"[a=1-2] [b=x,y] cmd run"`: the parse succeeds and
the expansion has 2 x 2 = 4 commands. -/
theorem c6_parallel_cardinality_witness :
    parse_parallel (str "[a=1-2] [b=x,y] cmd run") = some parsedC6 ∧
      ((∀ g ∈ parsedC6.groups, g.params ≠ [] ∧
          ∀ p ∈ g.params, p.values.length = zipLen g) ∧
        (expand parsedC6).length = (parsedC6.groups.map zipLen).prod) :=
  ⟨by decide,
    c6_parallel_cardinality (str "[a=1-2] [b=x,y] cmd run") parsedC6 (by decide)⟩

/-- A key property preserved by `updateMax`: if it holds of every key of
the map and of the inserted key, it holds of every key afterwards. -/
theorem updateMax_inv (P : List Char → Prop) :
    ∀ (m : List (List Char × Nat)) (k : List Char) (v : Nat),
      (∀ kv ∈ m, P kv.1) → P k → ∀ kv ∈ updateMax m k v, P kv.1 := by
  intro m
  induction m with
  | nil =>
    intro k v _ hk kv hkv
    rw [show updateMax [] k v = [(k, max 0 v)] from rfl, List.mem_singleton] at hkv
    rw [hkv]
    exact hk
  | cons a m ih =>
    intro k v hm hk kv hkv
    obtain ⟨k2, v2⟩ := a
    unfold updateMax at hkv
    by_cases hke : k2 = k
    · rw [if_pos hke] at hkv
      rcases List.mem_cons.mp hkv with h1 | h2
      · rw [h1]
        exact hm (k2, v2) (by simp)
      · exact hm kv (by simp [h2])
    · rw [if_neg hke] at hkv
      rcases List.mem_cons.mp hkv with h1 | h2
      · rw [h1]
        exact hm (k2, v2) (by simp)
      · exact ih k v (fun kv2 hkv2 => hm kv2 (by simp [hkv2])) hk kv h2

/-- Membership is preserved by descending insertion. -/
theorem mem_insertDescBy {α β : Type} [LinearOrder β] (key : α → β) (x a : α) :
    ∀ l : List α, a ∈ insertDescBy key x l ↔ a = x ∨ a ∈ l := by
  intro l
  induction l with
  | nil => simp [insertDescBy]
  | cons y ys ih =>
    unfold insertDescBy
    by_cases h : key y < key x
    · simp [h]
    · simp [h, ih]
      tauto

/-- Membership is preserved by the descending sort. -/
theorem mem_sortDescBy {α β : Type} [LinearOrder β] (key : α → β) (a : α) :
    ∀ l : List α, a ∈ sortDescBy key l ↔ a ∈ l := by
  intro l
  induction l with
  | nil => simp [sortDescBy]
  | cons y ys ih =>
    unfold sortDescBy
    rw [mem_insertDescBy, ih, List.mem_cons]

/-- Everything `suggest_args` returns is an `Argument` suggestion whose
name is not in the exclusion set. -/
theorem suggest_args_mem {eng : SuggestionEngine} {pfxs : List (List Char)}
    {part : List Char} {exclude : List (List Char)} {limit : Nat} {s : Suggestion}
    (hs : s ∈ suggest_args eng pfxs part exclude limit) :
    s.suggestionType = .Argument ∧ s.text ∉ exclude := by
  unfold suggest_args at hs
  have hs2 := List.mem_of_mem_take hs
  rw [mem_sortDescBy] at hs2
  obtain ⟨kv, hkv, rfl⟩ := List.mem_map.mp hs2
  refine ⟨rfl, ?_⟩
  refine (foldlInv (fun m : List (List Char × Nat) => ∀ kv2 ∈ m, kv2.1 ∉ exclude)
    (fun scored ip =>
      let boost : Nat := if ip.1 = pfxs.length - 1 then 4 else 2
      match alFind eng.argIndex ip.2 with
      | some args =>
        args.foldl
          (fun sc nf =>
            if part <+: nf.1 ∧ nf.1 ∉ exclude then updateMax sc nf.1 (nf.2 * boost)
            else sc)
          scored
      | none => scored)
    pfxs.enum [] (by simp) ?_) kv hkv
  intro b ip _ hb
  dsimp only
  cases half : alFind eng.argIndex ip.2 with
  | none => exact hb
  | some args =>
    refine foldlInv (fun m : List (List Char × Nat) => ∀ kv2 ∈ m, kv2.1 ∉ exclude) _
      args b hb ?_
    intro b2 nf _ hb2
    dsimp only
    by_cases hg : part <+: nf.1 ∧ nf.1 ∉ exclude
    · rw [if_pos hg]
      exact updateMax_inv (fun k => k ∉ exclude) b2 nf.1 _ hb2 hg.2
    · rw [if_neg hg]
      exact hb2

/-- Everything `suggest_arg_values` returns is an `ArgumentValue`
suggestion. -/
theorem suggest_arg_values_mem {eng : SuggestionEngine} {pfxs : List (List Char)}
    {argName part : List Char} {limit : Nat} {s : Suggestion}
    (hs : s ∈ suggest_arg_values eng pfxs argName part limit) :
    s.suggestionType = .ArgumentValue := by
  unfold suggest_arg_values at hs
  have hs2 := List.mem_of_mem_take hs
  rw [mem_sortDescBy] at hs2
  obtain ⟨kv, _, rfl⟩ := List.mem_map.mp hs2
  rfl

/-- Everything the fuzzy-search path returns is a `FullCommand`
suggestion. -/
theorem commands_from_searcher_mem {sr : Searcher} {query : List Char} {limit : Nat}
    {s : Suggestion} (hs : s ∈ commands_from_searcher sr query limit) :
    s.suggestionType = .FullCommand := by
  unfold commands_from_searcher at hs
  obtain ⟨r, _, rfl⟩ := List.mem_map.mp hs
  rfl

/-- Claim C8.  Every `Argument` suggestion returned by `suggest` has a
name outside the analyser's `existing_args` set of the input: the
argument-suggestion path always excludes `ctx.existing_args`, and the
fuzzy / value paths never produce `Argument` suggestions. -/
theorem c8_arg_dedup (eng : SuggestionEngine) (sr : Searcher) (input : List Char)
    (limit : Nat) (s : Suggestion) (hs : s ∈ suggest eng sr input limit)
    (ht : s.suggestionType = .Argument) :
    s.text ∉ (analyze_completed eng (split_input (trimStartL input)).1).existingArgs := by
  simp only [suggest] at hs
  split at hs
  · rw [commands_from_searcher_mem hs] at ht
    exact absurd ht (by decide)
  · split at hs
    · rw [commands_from_searcher_mem hs] at ht
      exact absurd ht (by decide)
    · split at hs
      · rw [commands_from_searcher_mem hs] at ht
        exact absurd ht (by decide)
      · split at hs
        · exact (suggest_args_mem hs).2
        · exact absurd hs (List.not_mem_nil s)
    · split at hs
      · rw [commands_from_searcher_mem hs] at ht
        exact absurd ht (by decide)
      · exact (suggest_args_mem hs).2
    · split at hs
      · rw [commands_from_searcher_mem hs] at ht
        exact absurd ht (by decide)
      · split at hs
        · rw [suggest_arg_values_mem hs] at ht
          exact absurd ht (by decide)
        · exact (suggest_args_mem hs).2

/-- Witness for C8: for the concrete engine and the input
`"cargo test --r"`, the `Argument` suggestion `--run` that `suggest`
returns is not among the input's existing arguments. -/
theorem c8_arg_dedup_witness :
    (str "--run") ∉
      (analyze_completed engineC1
        (split_input (trimStartL (str "cargo test --r"))).1).existingArgs :=
  c8_arg_dedup engineC1 searcherEmpty (str "cargo test --r") 10
    (Suggestion.mk (str "--run") 44 .Argument) (by decide) rfl

/-- A line that is not a parsing timestamp marker is read as a bare
command and processing continues with the remaining lines. -/
theorem read_bash_cons_nonmarker (l : List Char) (rest : List (List Char))
    (hcase : l.head? ≠ some '#' ∨ parseI64 (trimL l.tail) = none) :
    read_bash_history (l :: rest) = ⟨l, none⟩ :: read_bash_history rest := by
  by_cases hh : l.head? = some '#'
  · rcases hcase with h | h
    · exact absurd hh h
    · simp [read_bash_history, hh, h]
  · simp [read_bash_history, hh]

/-- Claim C10.  Appending a final timestamp-marker line (`#` + integer)
with no following command line to a bash history file adds no entry:
`read_bash_history` consumes the marker, finds no next line, and drops it
silently.  The hypothesis `danglingMarker ls = false` states that the
preceding lines do not end in a pending marker (otherwise the final line
would be consumed as that marker's command instead of being a marker). -/
theorem c10_trailing_marker_dropped (ls : List (List Char)) (m : List Char)
    (hm : isMarkerLine m = true) (hd : danglingMarker ls = false) :
    read_bash_history (ls ++ [m]) = read_bash_history ls := by
  obtain ⟨hmh, hmp⟩ : m.head? = some '#' ∧ (parseI64 (trimL m.tail)).isSome := by
    simpa [isMarkerLine] using hm
  obtain ⟨tsm, htsm⟩ := Option.isSome_iff_exists.mp hmp
  have main : ∀ (n : Nat) (ls : List (List Char)), ls.length ≤ n →
      danglingMarker ls = false → read_bash_history (ls ++ [m]) = read_bash_history ls := by
    intro n
    induction n with
    | zero =>
      intro ls hl _
      obtain rfl : ls = [] := List.eq_nil_of_length_eq_zero (Nat.le_zero.mp hl)
      simp [read_bash_history, hmh, htsm]
    | succ n ih =>
      intro ls hl hd
      rcases ls with _ | ⟨l, rest⟩
      · simp [read_bash_history, hmh, htsm]
      · by_cases hml : isMarkerLine l = true
        · obtain ⟨hlh, hlp⟩ : l.head? = some '#' ∧ (parseI64 (trimL l.tail)).isSome := by
            simpa [isMarkerLine] using hml
          obtain ⟨tsl, htsl⟩ := Option.isSome_iff_exists.mp hlp
          rcases rest with _ | ⟨x, rest2⟩
          · simp [danglingMarker, hml] at hd
          · have hlen : rest2.length ≤ n := by
              simp at hl
              omega
            have hd2 : danglingMarker rest2 = false := by
              simpa [danglingMarker, hml] using hd
            have hrec := ih rest2 hlen hd2
            simp [read_bash_history, hlh, htsl, hrec]
        · rcases rest with _ | ⟨x, rest2⟩
          · by_cases hlh2 : l.head? = some '#'
            · rcases htsl2 : parseI64 (trimL l.tail) with _ | tsl
              · simp [read_bash_history, hlh2, htsl2, hmh, htsm]
              · exact absurd (by simp [isMarkerLine, hlh2, htsl2] : isMarkerLine l = true) hml
            · simp [read_bash_history, hlh2, hmh, htsm]
          · have hlen : (x :: rest2).length ≤ n := by
              simp at hl ⊢
              omega
            have hd2 : danglingMarker (x :: rest2) = false := by
              simpa [danglingMarker, hml] using hd
            have hrec := ih (x :: rest2) hlen hd2
            by_cases hlh2 : l.head? = some '#'
            · rcases htsl2 : parseI64 (trimL l.tail) with _ | tsl
              · rw [List.cons_append, read_bash_cons_nonmarker l _ (Or.inr htsl2), hrec,
                  read_bash_cons_nonmarker l _ (Or.inr htsl2)]
              · exact absurd (by simp [isMarkerLine, hlh2, htsl2] : isMarkerLine l = true) hml
            · rw [List.cons_append, read_bash_cons_nonmarker l _ (Or.inl hlh2), hrec,
                read_bash_cons_nonmarker l _ (Or.inl hlh2)]
  exact main ls.length ls le_rfl hd

/-- Witness for C10: a file whose last line is a bare `#1700000000` marker
yields the same entries as without it. -/
theorem c10_trailing_marker_dropped_witness :
    isMarkerLine (str "#1700000000") = true ∧
      danglingMarker [str "ls"] = false ∧
      read_bash_history ([str "ls"] ++ [str "#1700000000"]) = read_bash_history [str "ls"] :=
  ⟨by decide, by decide,
    c10_trailing_marker_dropped [str "ls"] (str "#1700000000") (by decide) (by decide)⟩
